import Mathlib

/-!
Verification of the feature-engineering and decoding pipeline of
`src/reader/record_twomemory.py` (ReCoRD reading-comprehension data pipeline).

Each definition below is a shallow embedding of a function or loop of the
Python source; line numbers refer to `src/reader/record_twomemory.py`.
Python floats are modelled as exact rationals, Python strings as `List Char`,
and Python dict-of-position maps as positional lists.
-/

/-- A document span `(start, length)` over the document subword-token
sequence: the `_DocSpan` namedtuple of line 340. -/
structure DocSpan where
  start : ℕ
  length : ℕ
  deriving DecidableEq, Repr

/-- The sliding-window chunking loop of lines 342-351.  `L` is
`len(all_doc_tokens)`, `M` is `max_tokens_for_doc`, `stride` is `doc_stride`.
The Python `while start_offset < len(all_doc_tokens)` loop is driven by fuel;
`chunk_aux` with fuel at least `L - start_offset` reproduces the loop exactly
(each iteration advances `start_offset` by at least one when `1 ≤ M` and
`1 ≤ stride`).  `length = len(all_doc_tokens) - start_offset` capped at `M`
(lines 345-347) is written as `min`. -/
def chunk_aux (L M stride : ℕ) : ℕ → ℕ → List DocSpan
  | 0, _ => []
  | fuel + 1, start_offset =>
    if start_offset < L then
      let len := min (L - start_offset) M
      if start_offset + len = L then [⟨start_offset, len⟩]
      else ⟨start_offset, len⟩ :: chunk_aux L M stride fuel (start_offset + min len stride)
    else []

/-- The full `doc_spans` list built by lines 342-351, starting from
`start_offset = 0` with enough fuel for the whole document. -/
def doc_spans (L M stride : ℕ) : List DocSpan := chunk_aux L M stride L 0

/-- The inclusive end index of a span, `doc_span.start + doc_span.length - 1`
(line 550). -/
def spanEnd (s : DocSpan) : ℕ := s.start + s.length - 1

lemma chunk_aux_cover (L M stride : ℕ) (hM : 1 ≤ M) (hstride : 1 ≤ stride) :
    ∀ fuel start, L - start ≤ fuel → start < L →
      ∀ p, start ≤ p → p < L →
        ∃ s ∈ chunk_aux L M stride fuel start, s.start ≤ p ∧ p < s.start + s.length := by
  intro fuel
  induction fuel with
  | zero => intro start hfuel hstart; omega
  | succ fuel ih =>
    intro start hfuel hstart p hsp hpL
    have hlen : 1 ≤ min (L - start) M := by
      have : 1 ≤ L - start := by omega
      exact le_min this hM
    rw [chunk_aux, if_pos hstart]
    by_cases hbreak : start + min (L - start) M = L
    · rw [if_pos hbreak]
      refine ⟨⟨start, min (L - start) M⟩, List.mem_singleton.mpr rfl, hsp, ?_⟩
      simpa [hbreak] using hpL
    · rw [if_neg hbreak]
      by_cases hin : p < start + min (L - start) M
      · exact ⟨⟨start, min (L - start) M⟩, List.mem_cons_self _ _, hsp, hin⟩
      · have hle : start + min (L - start) M ≤ L := by
          have := Nat.min_le_left (L - start) M; omega
        have hlt : start + min (L - start) M < L := by omega
        have hstep : 1 ≤ min (min (L - start) M) stride := le_min hlen hstride
        have hnext : start + min (min (L - start) M) stride ≤ p := by
          have : min (min (L - start) M) stride ≤ min (L - start) M :=
            Nat.min_le_left _ _
          omega
        have hnextlt : start + min (min (L - start) M) stride < L := by
          have : min (min (L - start) M) stride ≤ min (L - start) M :=
            Nat.min_le_left _ _
          omega
        obtain ⟨s, hs, h1, h2⟩ :=
          ih (start + min (min (L - start) M) stride) (by omega) hnextlt p hnext hpL
        exact ⟨s, List.mem_cons_of_mem _ hs, h1, h2⟩

lemma chunk_aux_last (L M stride : ℕ) (hM : 1 ≤ M) (hstride : 1 ≤ stride) :
    ∀ fuel start, L - start ≤ fuel → start < L →
      ∃ s, (chunk_aux L M stride fuel start).getLast? = some s ∧ s.start + s.length = L := by
  intro fuel
  induction fuel with
  | zero => intro start hfuel hstart; omega
  | succ fuel ih =>
    intro start hfuel hstart
    have hlen : 1 ≤ min (L - start) M := by
      have : 1 ≤ L - start := by omega
      exact le_min this hM
    rw [chunk_aux, if_pos hstart]
    by_cases hbreak : start + min (L - start) M = L
    · rw [if_pos hbreak]
      exact ⟨⟨start, min (L - start) M⟩, rfl, hbreak⟩
    · rw [if_neg hbreak]
      have hle : start + min (L - start) M ≤ L := by
        have := Nat.min_le_left (L - start) M; omega
      have hstep : 1 ≤ min (min (L - start) M) stride := le_min hlen hstride
      have hnextlt : start + min (min (L - start) M) stride < L := by
        have : min (min (L - start) M) stride ≤ min (L - start) M := Nat.min_le_left _ _
        omega
      obtain ⟨s, hs, hsL⟩ := ih (start + min (min (L - start) M) stride) (by omega) hnextlt
      refine ⟨s, ?_, hsL⟩
      cases hrec : chunk_aux L M stride fuel (start + min (min (L - start) M) stride) with
      | nil => rw [hrec] at hs; simp at hs
      | cons a l => rw [hrec] at hs; rw [List.getLast?_cons_cons]; exact hs

/-- C1: for every document subword sequence of length `len >= 1`, token budget
`max_tokens_for_doc >= 1` and `doc_stride >= 1`, the DocSpan sequence produced
by the chunking loop (lines 342-351) covers every token index in `[0, len-1]`
at least once with no gaps, and the final span's end index
`start + length - 1` equals `len - 1` exactly. -/
theorem claim_C1 (L M stride : ℕ) (hL : 1 ≤ L) (hM : 1 ≤ M) (hstride : 1 ≤ stride) :
    (∀ p, p < L → ∃ s ∈ doc_spans L M stride, s.start ≤ p ∧ p < s.start + s.length) ∧
    (∃ s, (doc_spans L M stride).getLast? = some s ∧ s.start + s.length - 1 = L - 1) := by
  constructor
  · intro p hp
    exact chunk_aux_cover L M stride hM hstride L 0 (by omega) (by omega) p (Nat.zero_le p) hp
  · obtain ⟨s, hs, hsum⟩ := chunk_aux_last L M stride hM hstride L 0 (by omega) (by omega)
    exact ⟨s, hs, by omega⟩

theorem claim_C1_witness :
    (∃ s ∈ doc_spans 5 3 2, s.start ≤ 4 ∧ 4 < s.start + s.length) ∧
    (∃ s, (doc_spans 5 3 2).getLast? = some s ∧ s.start + s.length - 1 = 5 - 1) :=
  ⟨(claim_C1 5 3 2 (by decide) (by decide) (by decide)).1 4 (by decide),
   (claim_C1 5 3 2 (by decide) (by decide) (by decide)).2⟩

lemma chunk_aux_length_le (L M stride : ℕ) :
    ∀ fuel start s, s ∈ chunk_aux L M stride fuel start → s.length ≤ min (L - start) M := by
  intro fuel
  induction fuel with
  | zero => intro start s hs; simp [chunk_aux] at hs
  | succ fuel ih =>
    intro start s hs
    rw [chunk_aux] at hs
    by_cases hstart : start < L
    · rw [if_pos hstart] at hs
      by_cases hbreak : start + min (L - start) M = L
      · rw [if_pos hbreak] at hs
        rw [List.mem_singleton.mp hs]
      · rw [if_neg hbreak] at hs
        rcases List.mem_cons.mp hs with h | h
        · rw [h]
        · have := ih (start + min (min (L - start) M) stride) s h
          omega
    · rw [if_neg hstart] at hs; simp at hs

/-- In the chunker's output, span lengths are non-increasing: each span except
possibly the last has the full length `max_tokens_for_doc`. -/
lemma chunk_aux_pairwise_length (L M stride : ℕ) :
    ∀ fuel start,
      (chunk_aux L M stride fuel start).Pairwise (fun a b => b.length ≤ a.length) := by
  intro fuel
  induction fuel with
  | zero => intro start; simp [chunk_aux]
  | succ fuel ih =>
    intro start
    rw [chunk_aux]
    by_cases hstart : start < L
    · rw [if_pos hstart]
      by_cases hbreak : start + min (L - start) M = L
      · rw [if_pos hbreak]; simp
      · rw [if_neg hbreak]
        refine List.pairwise_cons.mpr ⟨?_, ih _⟩
        intro s hs
        have := chunk_aux_length_le L M stride fuel (start + min (min (L - start) M) stride) s hs
        simp only
        omega
    · rw [if_neg hstart]; simp

/-- Whether token position `p` lies inside span `s` (the two `continue`
guards of lines 551-554, negated). -/
def containsPos (s : DocSpan) (p : ℕ) : Prop := s.start ≤ p ∧ p ≤ spanEnd s

instance (s : DocSpan) (p : ℕ) : Decidable (containsPos s p) := by
  unfold containsPos; infer_instance

/-- The max-context score of span `s` at position `p` (lines 555-558):
`min(num_left_context, num_right_context) + 0.01 * doc_span.length`, with the
Python float modelled as an exact rational. -/
def span_score (s : DocSpan) (p : ℕ) : ℚ :=
  ((min (p - s.start) (spanEnd s - p) : ℕ) : ℚ) + (s.length : ℚ) / 100

/-- One iteration of the `for (span_index, doc_span) in enumerate(doc_spans)`
loop of `_check_is_max_context` (lines 549-561).  The accumulator is
`(best_score, best_span_index)`, `none` standing for Python's initial
`None`. -/
def bsa_step (p : ℕ) (best : Option (ℚ × ℕ)) (is : ℕ × DocSpan) : Option (ℚ × ℕ) :=
  if p < is.2.start then best
  else if spanEnd is.2 < p then best
  else
    match best with
    | none => some (span_score is.2 p, is.1)
    | some (bs, bi) =>
      if bs < span_score is.2 p then some (span_score is.2 p, is.1) else some (bs, bi)

/-- The `best_span_index` computed by the loop of lines 547-561. -/
def best_span_index (spans : List DocSpan) (position : ℕ) : Option ℕ :=
  (spans.enum.foldl (bsa_step position) none).map Prod.snd

/-- `_check_is_max_context` (lines 528-563): whether `cur_span_index` is the
best span index for `position` (Python `cur_span_index == best_span_index`,
which is `False` when `best_span_index` is still `None`). -/
def _check_is_max_context (spans : List DocSpan) (cur_span_index position : ℕ) : Bool :=
  best_span_index spans position == some cur_span_index

lemma bsa_step_cases (p : ℕ) (best : Option (ℚ × ℕ)) (a : ℕ × DocSpan) :
    (¬ containsPos a.2 p ∧ bsa_step p best a = best) ∨
    (containsPos a.2 p ∧
      ((best = none ∧ bsa_step p best a = some (span_score a.2 p, a.1)) ∨
       (∃ q k, best = some (q, k) ∧
         ((q < span_score a.2 p ∧ bsa_step p best a = some (span_score a.2 p, a.1)) ∨
          (¬ q < span_score a.2 p ∧ bsa_step p best a = some (q, k)))))) := by
  unfold bsa_step containsPos
  by_cases h1 : p < a.2.start
  · exact Or.inl ⟨by omega, by rw [if_pos h1]⟩
  · by_cases h2 : spanEnd a.2 < p
    · exact Or.inl ⟨by omega, by rw [if_neg h1, if_pos h2]⟩
    · rw [if_neg h1, if_neg h2]
      refine Or.inr ⟨⟨by omega, by omega⟩, ?_⟩
      match best with
      | none => exact Or.inl ⟨rfl, rfl⟩
      | some (q, k) =>
        refine Or.inr ⟨q, k, rfl, ?_⟩
        by_cases h3 : q < span_score a.2 p
        · exact Or.inl ⟨h3, by simp [h3]⟩
        · exact Or.inr ⟨h3, by simp [h3]⟩

lemma fold_isSome_of_acc (p : ℕ) :
    ∀ (l : List (ℕ × DocSpan)) (acc : Option (ℚ × ℕ)), acc.isSome →
      (l.foldl (bsa_step p) acc).isSome := by
  intro l
  induction l with
  | nil => intro acc h; simpa using h
  | cons a rest ih =>
    intro acc h
    rw [List.foldl_cons]
    apply ih
    rcases bsa_step_cases p acc a with ⟨_, heq⟩ | ⟨_, hc⟩
    · rw [heq]; exact h
    · rcases hc with ⟨_, heq⟩ | ⟨q, k, _, ⟨_, heq⟩ | ⟨_, heq⟩⟩ <;> rw [heq] <;> rfl

lemma fold_isSome_of_mem (p : ℕ) :
    ∀ (l : List (ℕ × DocSpan)) (acc : Option (ℚ × ℕ)) (js : ℕ × DocSpan),
      js ∈ l → containsPos js.2 p → (l.foldl (bsa_step p) acc).isSome := by
  intro l
  induction l with
  | nil => intro acc js h; simp at h
  | cons a rest ih =>
    intro acc js hmem hcont
    rw [List.foldl_cons]
    rcases List.mem_cons.mp hmem with h | h
    · subst h
      apply fold_isSome_of_acc
      rcases bsa_step_cases p acc js with ⟨hnc, _⟩ | ⟨_, hc⟩
      · exact absurd hcont hnc
      · rcases hc with ⟨_, heq⟩ | ⟨q, k, _, ⟨_, heq⟩ | ⟨_, heq⟩⟩ <;> rw [heq] <;> rfl
    · exact ih _ js h hcont

lemma fold_acc_le (p : ℕ) :
    ∀ (l : List (ℕ × DocSpan)) (q : ℚ) (k : ℕ) (bs : ℚ) (bi : ℕ),
      l.foldl (bsa_step p) (some (q, k)) = some (bs, bi) →
      q < bs ∨ (q = bs ∧ bi ≤ k) := by
  intro l
  induction l with
  | nil =>
    intro q k bs bi hfold
    simp only [List.foldl_nil, Option.some.injEq, Prod.mk.injEq] at hfold
    exact Or.inr ⟨hfold.1, le_of_eq hfold.2.symm⟩
  | cons a rest ih =>
    intro q k bs bi hfold
    rw [List.foldl_cons] at hfold
    rcases bsa_step_cases p (some (q, k)) a with ⟨_, heq⟩ | ⟨_, hcase⟩
    · rw [heq] at hfold; exact ih q k bs bi hfold
    · rcases hcase with ⟨hnone, _⟩ | ⟨q0, k0, hsome, hsub⟩
      · exact absurd hnone (by simp)
      · have hq : q0 = q ∧ k0 = k := by
          have := hsome.symm
          simp only [Option.some.injEq, Prod.mk.injEq] at this
          exact this
        obtain ⟨hq0, hk0⟩ := hq; subst hq0; subst hk0
        rcases hsub with ⟨hlt, heq⟩ | ⟨_, heq⟩
        · rw [heq] at hfold
          rcases ih _ _ _ _ hfold with h | ⟨h, _⟩
          · exact Or.inl (lt_trans hlt h)
          · exact Or.inl (h ▸ hlt)
        · rw [heq] at hfold; exact ih q0 k0 bs bi hfold

lemma fold_origin (p : ℕ) :
    ∀ (l : List (ℕ × DocSpan)) (acc : Option (ℚ × ℕ)) (bs : ℚ) (bi : ℕ),
      l.foldl (bsa_step p) acc = some (bs, bi) →
      acc = some (bs, bi) ∨ ∃ s, (bi, s) ∈ l ∧ containsPos s p ∧ bs = span_score s p := by
  intro l
  induction l with
  | nil => intro acc bs bi hfold; exact Or.inl hfold
  | cons a rest ih =>
    intro acc bs bi hfold
    rw [List.foldl_cons] at hfold
    rcases bsa_step_cases p acc a with ⟨_, heq⟩ | ⟨hc, hcase⟩
    · rw [heq] at hfold
      rcases ih acc bs bi hfold with h | ⟨s, hmem, h1, h2⟩
      · exact Or.inl h
      · exact Or.inr ⟨s, List.mem_cons_of_mem _ hmem, h1, h2⟩
    · have lift : ∀ heq2 : bsa_step p acc a = some (span_score a.2 p, a.1),
          acc = some (bs, bi) ∨ ∃ s, (bi, s) ∈ a :: rest ∧ containsPos s p ∧ bs = span_score s p := by
        intro heq2
        rw [heq2] at hfold
        rcases ih _ bs bi hfold with h | ⟨s, hmem, h1, h2⟩
        · have h' : span_score a.2 p = bs ∧ a.1 = bi := by
            simpa [Option.some.injEq, Prod.mk.injEq] using h
          refine Or.inr ⟨a.2, ?_, hc, h'.1.symm⟩
          rw [← h'.2]
          exact List.mem_cons_self a rest
        · exact Or.inr ⟨s, List.mem_cons_of_mem _ hmem, h1, h2⟩
      rcases hcase with ⟨_, heq2⟩ | ⟨q0, k0, haccsome, hsub⟩
      · exact lift heq2
      · rcases hsub with ⟨_, heq2⟩ | ⟨_, heq2⟩
        · exact lift heq2
        · rw [heq2] at hfold
          rcases ih _ bs bi hfold with h | ⟨s, hmem, h1, h2⟩
          · exact Or.inl (haccsome.trans h)
          · exact Or.inr ⟨s, List.mem_cons_of_mem _ hmem, h1, h2⟩


lemma fold_max (p : ℕ) :
    ∀ (l : List (ℕ × DocSpan)) (acc : Option (ℚ × ℕ)) (bs : ℚ) (bi : ℕ),
      (∀ q k, acc = some (q, k) → ∀ js ∈ l, k < js.1) →
      l.Pairwise (fun x y => x.1 < y.1) →
      l.foldl (bsa_step p) acc = some (bs, bi) →
      ∀ js ∈ l, containsPos js.2 p →
        span_score js.2 p < bs ∨ (span_score js.2 p = bs ∧ bi ≤ js.1) := by
  intro l
  induction l with
  | nil => intro acc bs bi _ _ _ js hjs; simp at hjs
  | cons a rest ih =>
    intro acc bs bi hacc hpw hfold js hjs hcont
    obtain ⟨hafirst, hpw'⟩ := List.pairwise_cons.mp hpw
    rw [List.foldl_cons] at hfold
    rcases bsa_step_cases p acc a with ⟨hnc, heq⟩ | ⟨hc, hcase⟩
    · rw [heq] at hfold
      rcases List.mem_cons.mp hjs with h | h
      · subst h; exact absurd hcont hnc
      · exact ih acc bs bi
          (fun q k hq js' hjs' => hacc q k hq js' (List.mem_cons_of_mem _ hjs'))
          hpw' hfold js h hcont
    · have hacc_new : ∀ q k, (some (span_score a.2 p, a.1) : Option (ℚ × ℕ)) = some (q, k) →
          ∀ js' ∈ rest, k < js'.1 := by
        intro q k hq js' hjs'
        have hk : k = a.1 := by
          simp only [Option.some.injEq, Prod.mk.injEq] at hq
          exact hq.2.symm
        rw [hk]; exact hafirst js' hjs'
      rcases hcase with ⟨haccnone, heq⟩ | ⟨q0, k0, haccsome, hsub⟩
      · rw [heq] at hfold
        rcases List.mem_cons.mp hjs with h | h
        · subst h
          exact fold_acc_le p rest _ _ bs bi hfold
        · exact ih _ bs bi hacc_new hpw' hfold js h hcont
      · rcases hsub with ⟨hlt, heq⟩ | ⟨hnlt, heq⟩
        · rw [heq] at hfold
          rcases List.mem_cons.mp hjs with h | h
          · subst h
            exact fold_acc_le p rest _ _ bs bi hfold
          · exact ih _ bs bi hacc_new hpw' hfold js h hcont
        · rw [heq] at hfold
          have hacc0 : ∀ q k, (some (q0, k0) : Option (ℚ × ℕ)) = some (q, k) →
              ∀ js' ∈ rest, k < js'.1 := by
            intro q k hq js' hjs'
            have hk : k = k0 := by
              simp only [Option.some.injEq, Prod.mk.injEq] at hq
              exact hq.2.symm
            rw [hk]
            exact hacc q0 k0 haccsome js' (List.mem_cons_of_mem _ hjs')
          rcases List.mem_cons.mp hjs with h | h
          · subst h
            have hle := fold_acc_le p rest q0 k0 bs bi hfold
            have hk0a : k0 < js.1 := hacc q0 k0 haccsome js (List.mem_cons_self js rest)
            have hsle : span_score js.2 p ≤ q0 := not_lt.mp hnlt
            rcases hle with h1 | ⟨h1, h2⟩
            · exact Or.inl (lt_of_le_of_lt hsle h1)
            · rcases eq_or_lt_of_le hsle with h3 | h3
              · exact Or.inr ⟨h3.trans h1, by omega⟩
              · exact Or.inl (h1 ▸ h3)
          · exact ih _ bs bi hacc0 hpw' hfold js h hcont

lemma enum_pairwise_fst {α : Type} (l : List α) :
    l.enum.Pairwise (fun a b => a.1 < b.1) := by
  rw [List.pairwise_iff_get]
  intro i j hij
  simp only [List.get_eq_getElem, List.getElem_enum]
  exact hij

/-- C2: for every DocSpan sequence produced by the chunker and every document
token position `p`, exactly one span is flagged by `_check_is_max_context` as
the max-context owner of `p`; the owner contains `p` and, against every other
span containing `p`, either has strictly higher score
`min(p - start, end - p) + 0.01 * length` or ties on the score with at least
the other span's length (the `0.01 * length` term makes longer spans win
residual ties). -/
theorem claim_C2 (L M stride p : ℕ) (hM : 1 ≤ M) (hstride : 1 ≤ stride) (hp : p < L) :
    (∃! i, _check_is_max_context (doc_spans L M stride) i p = true) ∧
    (∀ i, _check_is_max_context (doc_spans L M stride) i p = true →
      ∃ hi : i < (doc_spans L M stride).length,
        containsPos ((doc_spans L M stride).get ⟨i, hi⟩) p ∧
        ∀ j (hj : j < (doc_spans L M stride).length), j ≠ i →
          containsPos ((doc_spans L M stride).get ⟨j, hj⟩) p →
          (span_score ((doc_spans L M stride).get ⟨j, hj⟩) p <
              span_score ((doc_spans L M stride).get ⟨i, hi⟩) p ∨
            (span_score ((doc_spans L M stride).get ⟨j, hj⟩) p =
                span_score ((doc_spans L M stride).get ⟨i, hi⟩) p ∧
              ((doc_spans L M stride).get ⟨j, hj⟩).length ≤
                ((doc_spans L M stride).get ⟨i, hi⟩).length))) := by
  obtain ⟨s0, hs0mem, hs01, hs02⟩ :=
    chunk_aux_cover L M stride hM hstride L 0 (by omega) (by omega) p (Nat.zero_le p) hp
  have hs0mem' : s0 ∈ doc_spans L M stride := hs0mem
  have hs0cont : containsPos s0 p := ⟨hs01, by unfold spanEnd; omega⟩
  obtain ⟨n, hn⟩ := List.mem_iff_get.mp hs0mem'
  have hmemEnum : (n.1, s0) ∈ (doc_spans L M stride).enum := by
    rw [List.mk_mem_enum_iff_getElem?]
    rw [List.getElem?_eq_getElem n.2]
    rw [← hn]
    simp [List.get_eq_getElem]
  have hsome := fold_isSome_of_mem p (doc_spans L M stride).enum none (n.1, s0) hmemEnum hs0cont
  obtain ⟨⟨bs, bi⟩, hfold⟩ := Option.isSome_iff_exists.mp hsome
  have hbsi : best_span_index (doc_spans L M stride) p = some bi := by
    unfold best_span_index; rw [hfold]; rfl
  have hcheck_iff : ∀ i, _check_is_max_context (doc_spans L M stride) i p = true ↔ i = bi := by
    intro i
    simp only [_check_is_max_context, hbsi, beq_iff_eq, Option.some.injEq]
    exact eq_comm
  constructor
  · exact ⟨bi, (hcheck_iff bi).mpr rfl, fun y hy => (hcheck_iff y).mp hy⟩
  · intro i hchk
    have hieq : i = bi := (hcheck_iff i).mp hchk
    subst hieq
    have horigin := fold_origin p (doc_spans L M stride).enum none bs i hfold
    rcases horigin with h | ⟨s, hmem, hcont, hbs⟩
    · simp at h
    · rw [List.mk_mem_enum_iff_getElem?] at hmem
      obtain ⟨hilt, hi_get⟩ := List.getElem?_eq_some.mp hmem
      have hget_i : (doc_spans L M stride).get ⟨i, hilt⟩ = s := by
        simp [List.get_eq_getElem, hi_get]
      refine ⟨hilt, by rw [hget_i]; exact hcont, ?_⟩
      intro j hj hne hcontj
      have hmemj : (j, (doc_spans L M stride).get ⟨j, hj⟩) ∈ (doc_spans L M stride).enum := by
        rw [List.mk_mem_enum_iff_getElem?]
        rw [List.getElem?_eq_getElem hj]
        simp [List.get_eq_getElem]
      have hmx := fold_max p (doc_spans L M stride).enum none bs i
        (by intro q k hk; simp at hk) (enum_pairwise_fst _) hfold
        (j, (doc_spans L M stride).get ⟨j, hj⟩) hmemj hcontj
      have hbs_i : span_score ((doc_spans L M stride).get ⟨i, hilt⟩) p = bs := by
        rw [hget_i]; exact hbs.symm
      rcases hmx with h | ⟨heq, hle⟩
      · exact Or.inl (by rw [hbs_i]; exact h)
      · have hij : i < j := lt_of_le_of_ne hle (fun hc => hne hc.symm)
        have hpw : (doc_spans L M stride).Pairwise (fun a b => b.length ≤ a.length) :=
          chunk_aux_pairwise_length L M stride L 0
        have hlen := List.pairwise_iff_get.mp hpw ⟨i, hilt⟩ ⟨j, hj⟩ hij
        exact Or.inr ⟨by rw [hbs_i]; exact heq, hlen⟩

theorem claim_C2_witness :
    ∃! i, _check_is_max_context (doc_spans 5 3 2) i 2 = true :=
  (claim_C2 5 3 2 2 (by decide) (by decide) (by decide)).1

/-- Python `" ".join(tokens)` with strings modelled as `List Char`. -/
def joinTokens (ts : List (List Char)) : List Char := List.intercalate [' '] ts

/-- Python `" ".join(doc_tokens[new_start:(new_end + 1)])` (line 521). -/
def span_text (doc_tokens : List (List Char)) (new_start new_end : ℕ) : List Char :=
  joinTokens ((doc_tokens.drop new_start).take (new_end + 1 - new_start))

/-- The inner loop of `_improve_answer_span` (line 520),
`for new_end in range(input_end, new_start - 1, -1)`: `new_end` is written as
`new_start + k` with `k` counting down; returns the first matching
`new_end`. -/
def improve_inner (doc_tokens : List (List Char)) (tok_answer_text : List Char)
    (new_start : ℕ) : ℕ → Option ℕ
  | 0 =>
    if span_text doc_tokens new_start new_start == tok_answer_text then some new_start
    else none
  | k + 1 =>
    if span_text doc_tokens new_start (new_start + (k + 1)) == tok_answer_text then
      some (new_start + (k + 1))
    else improve_inner doc_tokens tok_answer_text new_start k

/-- The outer loop of `_improve_answer_span` (line 519),
`for new_start in range(input_start, input_end + 1)`: the last argument
counts the remaining `new_start` values. -/
def improve_outer (doc_tokens : List (List Char)) (tok_answer_text : List Char)
    (input_end : ℕ) : ℕ → ℕ → Option (ℕ × ℕ)
  | _, 0 => none
  | new_start, k + 1 =>
    match improve_inner doc_tokens tok_answer_text new_start (input_end - new_start) with
    | some new_end => some (new_start, new_end)
    | none => improve_outer doc_tokens tok_answer_text input_end (new_start + 1) k

/-- `_improve_answer_span` (lines 491-525): joins the independently
re-tokenized answer text with spaces, scans `(new_start, new_end)` pairs and
returns the first one whose joined token slice equals it, falling back to
`(input_start, input_end)` when nothing matches.  The external tokenizer is a
parameter. -/
def _improve_answer_span (doc_tokens : List (List Char)) (input_start input_end : ℕ)
    (tokenize : List Char → List (List Char)) (orig_answer_text : List Char) : ℕ × ℕ :=
  match improve_outer doc_tokens (joinTokens (tokenize orig_answer_text)) input_end
      input_start (input_end + 1 - input_start) with
  | some r => r
  | none => (input_start, input_end)

/-- The search order stated by the specification: all pairs
`(new_start, new_end)` with `input_start ≤ new_start ≤ new_end ≤ input_end`,
`new_start` ascending and, for each `new_start`, `new_end` descending from
`input_end`. -/
def search_order (input_start input_end : ℕ) : List (ℕ × ℕ) :=
  (List.range (input_end + 1 - input_start)).flatMap (fun a =>
    (List.range (input_end + 1 - (input_start + a))).map
      (fun d => (input_start + a, input_end - d)))

lemma improve_inner_eq (dt : List (List Char)) (ta : List Char) (ns : ℕ) :
    ∀ k, improve_inner dt ta ns k =
      ((List.range (k + 1)).map (fun d => ns + k - d)).find?
        (fun ne => span_text dt ns ne == ta) := by
  intro k
  induction k with
  | zero =>
    rw [improve_inner]
    have hl : (List.range 1).map (fun d => ns + 0 - d) = [ns] := by
      simp [List.range_succ]
    rw [hl]
    by_cases h : (span_text dt ns ns == ta) = true
    · rw [if_pos h]
      simp [List.find?, h]
    · rw [if_neg h]
      have h' : (span_text dt ns ns == ta) = false := by simpa using h
      simp [List.find?, h']
  | succ k ih =>
    have hlist : (List.range (k + 1 + 1)).map (fun d => ns + (k + 1) - d) =
        (ns + (k + 1)) :: (List.range (k + 1)).map (fun d => ns + k - d) := by
      rw [List.range_succ_eq_map, List.map_cons, List.map_map]
      refine congrArg₂ _ (by omega) ?_
      refine List.map_congr_left fun d _ => ?_
      simp only [Function.comp_apply]
      omega
    rw [hlist, improve_inner]
    by_cases h : (span_text dt ns (ns + (k + 1)) == ta) = true
    · rw [if_pos h]
      simp [List.find?, h]
    · rw [if_neg h]
      have h' : (span_text dt ns (ns + (k + 1)) == ta) = false := by simpa using h
      simp only [List.find?, h']
      exact ih

lemma improve_outer_eq (dt : List (List Char)) (ta : List Char) (e : ℕ) :
    ∀ k ns, ns + k = e + 1 →
      improve_outer dt ta e ns k =
        ((List.range k).flatMap (fun a =>
          (List.range (e + 1 - (ns + a))).map (fun d => (ns + a, e - d)))).find?
          (fun q => span_text dt q.1 q.2 == ta) := by
  intro k
  induction k with
  | zero => intro ns h; simp [improve_outer]
  | succ k ih =>
    intro ns h
    have hns : ns ≤ e := by omega
    have hlist : (List.range (k + 1)).flatMap (fun a =>
          (List.range (e + 1 - (ns + a))).map (fun d => (ns + a, e - d))) =
        ((List.range (e + 1 - ns)).map (fun d => (ns, e - d))) ++
        ((List.range k).flatMap (fun a =>
          (List.range (e + 1 - (ns + 1 + a))).map (fun d => (ns + 1 + a, e - d)))) := by
      rw [List.range_succ_eq_map, List.flatMap_cons, List.flatMap_map]
      congr 1
      exact congrArg (List.range k).flatMap (funext fun a => by
        have h1 : ns + (a + 1) = ns + 1 + a := by omega
        simp only [h1])
    have hinner : improve_inner dt ta ns (e - ns) =
        ((List.range (e + 1 - ns)).map (fun d => e - d)).find?
          (fun ne => span_text dt ns ne == ta) := by
      rw [improve_inner_eq]
      congr 1
      have h2 : e - ns + 1 = e + 1 - ns := by omega
      rw [h2]
      refine List.map_congr_left fun d _ => by omega
    rw [hlist, List.find?_append, improve_outer, hinner]
    cases hfd : ((List.range (e + 1 - ns)).map (fun d => e - d)).find?
        (fun ne => span_text dt ns ne == ta) with
    | some ne =>
      have hq : ((List.range (e + 1 - ns)).map (fun d => (ns, e - d))).find?
          (fun q => span_text dt q.1 q.2 == ta) = some (ns, ne) := by
        rw [List.find?_map]
        rw [List.find?_map] at hfd
        cases hbase : (List.range (e + 1 - ns)).find?
            ((fun q => span_text dt q.1 q.2 == ta) ∘ fun d => (ns, e - d)) with
        | some d =>
          have hbase' : (List.range (e + 1 - ns)).find?
              ((fun ne => span_text dt ns ne == ta) ∘ fun d => e - d) = some d := by
            rw [← hbase]; rfl
          rw [hbase'] at hfd
          simp only [Option.map_some'] at hfd ⊢
          simpa using hfd
        | none =>
          have hbase' : (List.range (e + 1 - ns)).find?
              ((fun ne => span_text dt ns ne == ta) ∘ fun d => e - d) = none := by
            rw [← hbase]; rfl
          rw [hbase'] at hfd
          simp at hfd
      rw [hq]
      rfl
    | none =>
      have hq : ((List.range (e + 1 - ns)).map (fun d => (ns, e - d))).find?
          (fun q => span_text dt q.1 q.2 == ta) = none := by
        rw [List.find?_map]
        rw [List.find?_map] at hfd
        cases hbase : (List.range (e + 1 - ns)).find?
            ((fun q => span_text dt q.1 q.2 == ta) ∘ fun d => (ns, e - d)) with
        | some d =>
          have hbase' : (List.range (e + 1 - ns)).find?
              ((fun ne => span_text dt ns ne == ta) ∘ fun d => e - d) = some d := by
            rw [← hbase]; rfl
          rw [hbase'] at hfd
          simp at hfd
        | none => simp
      rw [hq]
      simp only [Option.or]
      exact ih (ns + 1) (by omega)

/-- C3: for every document token list, coarse span with
`input_start ≤ input_end` and answer text, `_improve_answer_span` returns the
first pair in the search order (`new_start` ascending, `new_end` descending
from `input_end`) whose space-joined token slice equals the space-joined
re-tokenized answer text, and `(input_start, input_end)` unchanged when no
pair matches. -/
theorem claim_C3 (doc_tokens : List (List Char)) (input_start input_end : ℕ)
    (tokenize : List Char → List (List Char)) (orig_answer_text : List Char)
    (h : input_start ≤ input_end) :
    _improve_answer_span doc_tokens input_start input_end tokenize orig_answer_text =
      ((search_order input_start input_end).find?
        (fun q => span_text doc_tokens q.1 q.2 ==
          joinTokens (tokenize orig_answer_text))).getD (input_start, input_end) := by
  unfold _improve_answer_span search_order
  rw [improve_outer_eq doc_tokens (joinTokens (tokenize orig_answer_text)) input_end
    (input_end + 1 - input_start) input_start (by omega)]
  cases ((List.range (input_end + 1 - input_start)).flatMap (fun a =>
      (List.range (input_end + 1 - (input_start + a))).map
        (fun d => (input_start + a, input_end - d)))).find?
      (fun q => span_text doc_tokens q.1 q.2 == joinTokens (tokenize orig_answer_text)) with
  | none => rfl
  | some r => rfl

/-- Document tokens of the specification's example: the subword tokenization
of "the man went (1895 - 1943) .". -/
def demo_doc_tokens : List (List Char) :=
  ["the".toList, "man".toList, "went".toList, "(".toList, "1895".toList,
   "-".toList, "1943".toList, ")".toList, ".".toList]

/-- A concrete tokenizer for the example: the answer text "1895" is a single
subword. -/
def demo_tokenize : List Char → List (List Char) := fun _ => ["1895".toList]

theorem claim_C3_witness :
    3 ≤ 8 ∧
    (_improve_answer_span demo_doc_tokens 3 8 demo_tokenize "1895".toList =
      ((search_order 3 8).find?
        (fun q => span_text demo_doc_tokens q.1 q.2 ==
          joinTokens (demo_tokenize "1895".toList))).getD (3, 8)) ∧
    _improve_answer_span demo_doc_tokens 3 8 demo_tokenize "1895".toList = (4, 4) :=
  ⟨by decide, claim_C3 demo_doc_tokens 3 8 demo_tokenize "1895".toList (by decide),
   by decide⟩

/-- Concept-row padding of lines 410-412:
`concept_id + [0] * (max_concept_length - len(concept_id))` followed by
`[:max_concept_length]`.  A Python repeat count that would be negative yields
the empty list, exactly like truncated subtraction here. -/
def pad_concept_row (max_concept_length : ℕ) (concept_id : List ℕ) : List ℕ :=
  (concept_id ++ List.replicate (max_concept_length - concept_id.length) 0).take
    max_concept_length

/-- The concept-id rows assembled for one feature (lines 358-390): an empty
row for `[CLS]`, the query rows, an empty row for the first `[SEP]`, the rows
`doc_concepts[doc_span.start + i]` for `i < doc_span.length`, and an empty row
for the trailing `[SEP]`. -/
def feature_concept_rows (query_concepts doc_concepts : List (List ℕ))
    (span : DocSpan) : List (List ℕ) :=
  [[]] ++ query_concepts ++ [[]] ++
    ((doc_concepts.drop span.start).take span.length) ++ [[]]

/-- The concept-id rows of one feature after the fixed-width padding pass of
lines 408-413 (applied per table, `max_concept_length` being that table's
global maximum). -/
def feature_padded_rows (max_concept_length : ℕ)
    (query_concepts doc_concepts : List (List ℕ)) (span : DocSpan) : List (List ℕ) :=
  (feature_concept_rows query_concepts doc_concepts span).map
    (pad_concept_row max_concept_length)

/-- C4: for every emitted feature and each concept table, every per-position
concept-id row has length exactly the table's global maximum length `m`; rows
shorter than `m` are padded with the sentinel id 0 and rows longer than `m`
are truncated to `m`. -/
theorem claim_C4 (m : ℕ) (query_concepts doc_concepts : List (List ℕ)) (span : DocSpan) :
    (∀ row ∈ feature_padded_rows m query_concepts doc_concepts span, row.length = m) ∧
    (∀ r : List ℕ,
      (r.length ≤ m → pad_concept_row m r = r ++ List.replicate (m - r.length) 0) ∧
      (m ≤ r.length → pad_concept_row m r = r.take m)) := by
  constructor
  · intro row hrow
    unfold feature_padded_rows at hrow
    rw [List.mem_map] at hrow
    obtain ⟨r, _, hr⟩ := hrow
    rw [← hr]
    unfold pad_concept_row
    rw [List.length_take, List.length_append, List.length_replicate]
    omega
  · intro r
    constructor
    · intro hle
      unfold pad_concept_row
      refine List.take_of_length_le ?_
      rw [List.length_append, List.length_replicate]
      omega
    · intro hge
      unfold pad_concept_row
      have hz : m - r.length = 0 := by omega
      rw [hz, List.replicate_zero, List.append_nil]

theorem claim_C4_witness :
    pad_concept_row 3 [1, 2, 3, 4] = [1, 2, 3] ∧
    pad_concept_row 3 [5] = [5, 0, 0] ∧
    ∀ row ∈ feature_padded_rows 3 [[5]] [[1, 2, 3, 4], [7]] ⟨0, 2⟩, row.length = 3 :=
  ⟨(((claim_C4 3 [[5]] [[1, 2, 3, 4], [7]] ⟨0, 2⟩).2 [1, 2, 3, 4]).2 (by decide)).trans
      (by decide),
   (((claim_C4 3 [[5]] [[1, 2, 3, 4], [7]] ⟨0, 2⟩).2 [5]).1 (by decide)).trans (by decide),
   (claim_C4 3 [[5]] [[1, 2, 3, 4], [7]] ⟨0, 2⟩).1⟩

/-- One run of the `batch_reader` generator (lines 656-681) over a feature
stream, keeping the data batching depends on: each feature is represented by
its sequence length `len(feature.input_ids)`.  The loop state
`(batch, total_token_num, max_len)` is threaded explicitly with its Python
initial values `([], 0, 0)` at the call site; `max_len` is updated before the
admission test (line 666), `in_tokens` selects the token-budget mode
(lines 669-672), rejection emits the pending pair and restarts the state as
`([example], seq_len, seq_len)` (lines 677-679), and a final non-empty batch
is emitted at the end (lines 680-681). -/
def batch_reader (in_tokens : Bool) (batch_size : ℕ) :
    List ℕ → ℕ → ℕ → List ℕ → List (List ℕ × ℕ)
  | batch, total_token_num, _, [] =>
    if batch.isEmpty then [] else [(batch, total_token_num)]
  | batch, total_token_num, max_len, seq_len :: rest =>
    let max_len' := max max_len seq_len
    let to_append : Bool :=
      if in_tokens then decide ((batch.length + 1) * max_len' ≤ batch_size)
      else decide (batch.length < batch_size)
    if to_append then
      batch_reader in_tokens batch_size (batch ++ [seq_len]) (total_token_num + seq_len)
        max_len' rest
    else
      (batch, total_token_num) ::
        batch_reader in_tokens batch_size [seq_len] seq_len seq_len rest

lemma batch_reader_join (in_tokens : Bool) (batch_size : ℕ) :
    ∀ (rest batch : List ℕ) (total max_len : ℕ),
      ((batch_reader in_tokens batch_size batch total max_len rest).map Prod.fst).flatten =
        batch ++ rest := by
  intro rest
  induction rest with
  | nil =>
    intro batch total max_len
    rw [batch_reader]
    by_cases h : batch.isEmpty
    · rw [if_pos h]
      simp [List.isEmpty_iff.mp h]
    · rw [if_neg h]
      simp
  | cons seq_len rest ih =>
    intro batch total max_len
    rw [batch_reader]
    split
    · split
      · rw [ih]; simp
      · simp [ih]
    · split
      · rw [ih]; simp
      · simp [ih]

lemma batch_reader_sum (in_tokens : Bool) (batch_size : ℕ) :
    ∀ (rest batch : List ℕ) (total max_len : ℕ), total = batch.sum →
      ∀ pr ∈ batch_reader in_tokens batch_size batch total max_len rest, pr.2 = pr.1.sum := by
  intro rest
  induction rest with
  | nil =>
    intro batch total max_len htot pr hpr
    rw [batch_reader] at hpr
    by_cases h : batch.isEmpty
    · rw [if_pos h] at hpr; simp at hpr
    · rw [if_neg h] at hpr
      rw [List.mem_singleton.mp hpr, htot]
  | cons seq_len rest ih =>
    intro batch total max_len htot pr hpr
    rw [batch_reader] at hpr
    split at hpr
    · split at hpr
      · exact ih _ _ _ (by rw [htot]; simp) pr hpr
      · rcases List.mem_cons.mp hpr with h | h
        · rw [h]; exact htot
        · exact ih _ _ _ (by simp) pr h
    · split at hpr
      · exact ih _ _ _ (by rw [htot]; simp) pr hpr
      · rcases List.mem_cons.mp hpr with h | h
        · rw [h]; exact htot
        · exact ih _ _ _ (by simp) pr h

/-- C5: in the token-budget-bounded mode, a feature is admitted iff
`(len(batch) + 1) * max_len <= batch_size` with `max_len` already including
the candidate (the `batch_reader` definition above); every feature ends up in
exactly one emitted batch in order (so the final non-empty pending batch is
always emitted), each emitted total is the sum of its batch's lengths, and on
`batch_size = 10` with feature lengths `[4, 4, 3]` the first batch holds the
first two features and the second batch starts with the third alone. -/
theorem claim_C5 (batch_size : ℕ) (lens : List ℕ) :
    (((batch_reader true batch_size [] 0 0 lens).map Prod.fst).flatten = lens) ∧
    (∀ pr ∈ batch_reader true batch_size [] 0 0 lens, pr.2 = pr.1.sum) ∧
    batch_reader true 10 [] 0 0 [4, 4, 3] = [([4, 4], 8), ([3], 3)] :=
  ⟨by simpa using batch_reader_join true batch_size lens [] 0 0,
   batch_reader_sum true batch_size lens [] 0 0 rfl,
   by decide⟩

theorem claim_C5_witness :
    ((batch_reader true 10 [] 0 0 [4, 4, 3]).map Prod.fst).flatten = [4, 4, 3] ∧
    (8 : ℕ) = [4, 4].sum :=
  ⟨(claim_C5 10 [4, 4, 3]).1, (claim_C5 10 [4, 4, 3]).2.1 ([4, 4], 8) (by decide)⟩

/-- One n-best decoding entry: the `_NbestPrediction` namedtuple of line 836,
logits as exact rationals, text as `List Char`. -/
structure NbestEntry where
  text : List Char
  start_logit : ℚ
  end_logit : ℚ
  deriving DecidableEq, Repr

/-- The `best_non_null_entry` scan of lines 897-902: the first entry of
`nbest` whose text is non-empty (Python `if entry.text:` guarded by
`if not best_non_null_entry:`). -/
def best_non_null_entry (nbest : List NbestEntry) : Option NbestEntry :=
  nbest.find? (fun e => !(e.text == []))

/-- The final decision of lines 929-937 with negative answers enabled:
`score_diff = score_null - best_non_null_entry.start_logit -
best_non_null_entry.end_logit`; predict the empty string iff
`score_diff > null_score_diff_threshold`, otherwise the best non-null text.
`none` models the Python `AttributeError` when `nbest` holds no non-null
entry and `best_non_null_entry` stays `None`. -/
def final_prediction_with_negative (score_null null_score_diff_threshold : ℚ)
    (nbest : List NbestEntry) : Option (List Char) :=
  match best_non_null_entry nbest with
  | none => none
  | some best =>
    if score_null - best.start_logit - best.end_logit > null_score_diff_threshold then
      some []
    else some best.text

lemma find?_first_max {α : Type} (score : α → ℚ) (p : α → Bool) :
    ∀ (l : List α) (b : α), l.find? p = some b →
      l.Pairwise (fun x y => score y ≤ score x) →
      ∀ e ∈ l, p e = true → score e ≤ score b := by
  intro l
  induction l with
  | nil => intro b hb; simp at hb
  | cons a rest ih =>
    intro b hb hpw e he hpe
    obtain ⟨hfirst, hpw'⟩ := List.pairwise_cons.mp hpw
    by_cases hpa : p a = true
    · rw [List.find?_cons_of_pos _ hpa] at hb
      have hba : b = a := by simpa using hb.symm
      rcases List.mem_cons.mp he with h | h
      · subst h; rw [hba]
      · rw [hba]; exact hfirst e h
    · rw [List.find?_cons_of_neg _ (by simpa using hpa)] at hb
      rcases List.mem_cons.mp he with h | h
      · subst h; exact absurd hpe hpa
      · exact ih b hb hpw' e h hpe

/-- C6: with negative-answer support enabled, the decoder emits the empty
string iff `score_null` minus the combined score of the best non-null nbest
entry strictly exceeds `null_score_diff_threshold`, and otherwise emits the
best non-null entry's text; when `nbest` is sorted by combined score
descending (as `write_predictions` sorts it), the entry picked by the
`best_non_null_entry` scan has maximal combined score among non-null
entries. -/
theorem claim_C6 (score_null threshold : ℚ) (nbest : List NbestEntry) (b : NbestEntry)
    (hb : best_non_null_entry nbest = some b) :
    (nbest.Pairwise (fun x y =>
        y.start_logit + y.end_logit ≤ x.start_logit + x.end_logit) →
      ∀ e ∈ nbest, e.text ≠ [] →
        e.start_logit + e.end_logit ≤ b.start_logit + b.end_logit) ∧
    (final_prediction_with_negative score_null threshold nbest = some [] ↔
      score_null - (b.start_logit + b.end_logit) > threshold) ∧
    (¬ score_null - (b.start_logit + b.end_logit) > threshold →
      final_prediction_with_negative score_null threshold nbest = some b.text) := by
  have hbtext : b.text ≠ [] := by
    have := List.find?_some hb
    simpa using this
  have hb' : List.find? (fun e => !(e.text == [])) nbest = some b := hb
  refine ⟨?_, ⟨?_, ?_⟩, ?_⟩
  · intro hsort e he hne
    exact find?_first_max (fun e => e.start_logit + e.end_logit) (fun e => !(e.text == []))
      nbest b hb' hsort e he (by simpa using hne)
  · intro hres
    simp only [final_prediction_with_negative, hb] at hres
    by_cases hgt : score_null - b.start_logit - b.end_logit > threshold
    · rw [← sub_sub]; exact hgt
    · rw [if_neg hgt] at hres
      have : b.text = [] := by simpa using hres
      exact absurd this hbtext
  · intro hgt
    simp only [final_prediction_with_negative, hb]
    rw [if_pos (by rw [sub_sub]; exact hgt)]
  · intro hngt
    simp only [final_prediction_with_negative, hb]
    rw [if_neg (by rw [sub_sub]; exact hngt)]

theorem claim_C6_witness :
    final_prediction_with_negative 5 2 [⟨"ans".toList, 2, 2⟩] = some "ans".toList := by
  have h := claim_C6 5 2 [⟨"ans".toList, 2, 2⟩] ⟨"ans".toList, 2, 2⟩ rfl
  exact h.2.2 (by norm_num)

/-- The unique-id assignment of `Examples_To_Features_Converter.__call__`:
the running counter value is paired with each emitted feature and incremented
once per yield (lines 471 and 486). -/
def assign_ids_from {α : Type} (unique_id : ℕ) : List α → List (ℕ × α)
  | [] => []
  | f :: fs => (unique_id, f) :: assign_ids_from (unique_id + 1) fs

/-- The id sequence of one converter invocation (one `__call__` generator
run): the counter is a local variable seeded at 1000000000 (line 264). -/
def assign_unique_ids {α : Type} (feats : List α) : List (ℕ × α) :=
  assign_ids_from 1000000000 feats

/-- The feature stream seen across `epoch` epochs of
`DataProcessor.data_generator`'s `wrapper` (lines 693-705): every epoch calls
`get_features`, which constructs a fresh converter generator, so every epoch
restarts the counter. -/
def epochs_unique_ids {α : Type} (epoch : ℕ) (feats : List α) : List (ℕ × α) :=
  (List.range epoch).flatMap (fun _ => assign_unique_ids feats)

/-- C7 counterexample: over two epochs with a single feature each, the second
emitted feature's unique id equals the first's instead of being strictly
greater — the counter is local to each conversion invocation, not
process-wide. -/
theorem claim_C7_counterexample :
    ((epochs_unique_ids 2 [(0 : ℕ)]).map Prod.fst) = [1000000000, 1000000000] ∧
    ¬ ((epochs_unique_ids 2 [(0 : ℕ)]).map Prod.fst).Pairwise (· < ·) := by
  constructor
  · decide
  · decide

lemma assign_ids_from_map_fst {α : Type} :
    ∀ (l : List α) (u : ℕ),
      (assign_ids_from u l).map Prod.fst = (List.range l.length).map (fun k => u + k) := by
  intro l
  induction l with
  | nil => intro u; simp [assign_ids_from]
  | cons f fs ih =>
    intro u
    rw [assign_ids_from]
    simp only [List.map_cons, List.length_cons, List.range_succ_eq_map, List.map_map]
    rw [ih]
    refine congrArg₂ _ (by omega) ?_
    refine List.map_congr_left fun k _ => ?_
    simp only [Function.comp_apply]
    omega

/-- C7 amended: within a single converter invocation, the emitted unique ids
are exactly `1000000000 + k` for the `k`-th emitted feature — strictly
increasing and all at least the seed — but the counter restarts at 1000000000
on each new invocation (e.g. each epoch), so ids repeat across
invocations. -/
theorem claim_C7_amended {α : Type} (feats : List α) :
    (assign_unique_ids feats).map Prod.fst =
      (List.range feats.length).map (fun k => 1000000000 + k) ∧
    ((assign_unique_ids feats).map Prod.fst).Pairwise (· < ·) ∧
    (∀ i ∈ (assign_unique_ids feats).map Prod.fst, 1000000000 ≤ i) ∧
    epochs_unique_ids 2 feats = assign_unique_ids feats ++ assign_unique_ids feats := by
  have hmap := assign_ids_from_map_fst feats 1000000000
  refine ⟨hmap, ?_, ?_, ?_⟩
  · rw [assign_unique_ids, hmap, List.pairwise_map]
    exact (List.pairwise_lt_range feats.length).imp (by omega)
  · intro i hi
    rw [assign_unique_ids, hmap] at hi
    rw [List.mem_map] at hi
    obtain ⟨k, _, hk⟩ := hi
    omega
  · simp [epochs_unique_ids, List.range_succ]

theorem claim_C7_amended_witness :
    ((assign_unique_ids [(0 : ℕ), 1]).map Prod.fst).Pairwise (· < ·) ∧
    ((assign_unique_ids [(0 : ℕ), 1]).map Prod.fst) = [1000000000, 1000000001] :=
  ⟨(claim_C7_amended [(0 : ℕ), 1]).2.1, by decide⟩

/-- The whitespace test of lines 116-119: space, tab, CR, LF, or the
code point 0x202F. -/
def is_whitespace (c : Char) : Bool :=
  c == ' ' || c == '\t' || c == '\r' || c == '\n' || c.toNat == 0x202F

/-- One step of the passage scan of lines 124-136 on state
`(doc_tokens, char_to_word_offset, prev_is_whitespace)`: a whitespace
character only records the current `len(doc_tokens) - 1`; any other character
starts a new word (after whitespace) or extends the last word
(`doc_tokens[-1] += c`), and then the offset is recorded.  Offsets are
integers because Python stores `-1` for whitespace before the first word. -/
def read_doc_step (st : List (List Char) × List ℤ × Bool) (c : Char) :
    List (List Char) × List ℤ × Bool :=
  let (doc_tokens, char_to_word_offset, prev_is_whitespace) := st
  if is_whitespace c then
    (doc_tokens, char_to_word_offset ++ [(doc_tokens.length : ℤ) - 1], true)
  else
    let doc_tokens' :=
      if prev_is_whitespace then doc_tokens ++ [[c]]
      else doc_tokens.dropLast ++ [(doc_tokens.getLast?.getD []) ++ [c]]
    (doc_tokens', char_to_word_offset ++ [(doc_tokens'.length : ℤ) - 1], false)

/-- The passage scan of lines 124-136: word tokens and the
char-to-word-offset map. -/
def read_doc_tokens (paragraph_text : List Char) : List (List Char) × List ℤ :=
  let st := paragraph_text.foldl read_doc_step ([], [], true)
  (st.1, st.2.1)

/-- The `\xa0` to space replacement of line 123. -/
def normalize_passage (text : List Char) : List Char :=
  text.map (fun c => if c.toNat = 0xA0 then ' ' else c)

/-- Modelled from the spec: `tokenization.whitespace_tokenize` lives in the
external module `src.reader.tokenization`, which is not under src/; per the
spec it yields the whitespace-normalized answer text, i.e. the text split on
whitespace into words with empty pieces dropped. -/
def whitespace_tokenize (text : List Char) : List (List Char) :=
  (text.foldl (fun (st : List (List Char) × Bool) c =>
      if is_whitespace c then (st.1, true)
      else if st.2 then (st.1 ++ [[c]], false)
      else (st.1.dropLast ++ [(st.1.getLast?.getD []) ++ [c]], false))
    ([], true)).1

/-- Python `haystack.find(needle) != -1`: substring containment over
`List Char`. -/
def containsSubstr (haystack needle : List Char) : Bool :=
  (List.range (haystack.length + 1)).any (fun i => needle.isPrefixOf (haystack.drop i))

/-- One training answer record, `answer["text"]` and `answer["start"]`
(lines 154-156). -/
structure QAAnswer where
  text : List Char
  start : ℕ
  deriving DecidableEq, Repr

instance {ε α : Type} [DecidableEq ε] [DecidableEq α] : DecidableEq (Except ε α) := fun x y =>
  match x, y with
  | Except.error a, Except.error b => decidable_of_iff (a = b) (by simp)
  | Except.error _, Except.ok _ => Decidable.isFalse (by simp)
  | Except.ok _, Except.error _ => Decidable.isFalse (by simp)
  | Except.ok a, Except.ok b => decidable_of_iff (a = b) (by simp)

/-- Python single-element indexing `l[i]`: a negative index counts from the
end of the list; an index that is still out of range raises `IndexError`,
modelled as `none`. -/
def pyGet {α : Type} (l : List α) (i : ℤ) : Option α :=
  let j : ℤ := if i < 0 then (l.length : ℤ) + i else i
  if 0 ≤ j then l.get? j.toNat else none

/-- Python slicing `l[a:b]` with step 1: each bound is shifted by `len(l)`
when negative and then clamped to `[0, len(l)]`; the result holds the
elements from the normalized lower bound up to, excluding, the normalized
upper bound. -/
def pySlice {α : Type} (l : List α) (a b : ℤ) : List α :=
  let n : ℤ := l.length
  let lo : ℤ := if a < 0 then max (n + a) 0 else min a n
  let hi : ℤ := if b < 0 then max (n + b) 0 else min b n
  (l.drop lo.toNat).take (hi - lo).toNat

/-- Lines 158-160: the character offsets `answer_offset` and
`answer_offset + answer_length - 1` looked up in `char_to_word_offset` with
Python indexing; an out-of-range offset raises `IndexError` (`Except.error`),
which aborts the whole reader call — it is not a drop. -/
def qa_answer_span (char_to_word_offset : List ℤ) (ans : QAAnswer) :
    Except Unit (ℤ × ℤ) :=
  match pyGet char_to_word_offset (ans.start : ℤ),
      pyGet char_to_word_offset ((ans.start : ℤ) + ans.text.length - 1) with
  | some start_position, some end_position => Except.ok (start_position, end_position)
  | _, _ => Except.error ()

/-- Lines 153-187 for one non-impossible training QA pair: map the character
offsets to a word span — possibly `-1` when an offset lands on whitespace
before the first word — rebuild `actual_text` as
`" ".join(doc_tokens[start_position:(end_position + 1)])` with Python slice
semantics (so a `-1` bound counts from the end of `doc_tokens`, exactly as in
the source), and emit the raw span iff the whitespace-normalized answer text
is a substring; `find(...) == -1` drops the pair with only a log line
(`Except.ok none`, lines 167-173), while an offset lookup error
propagates. -/
def process_training_answer (doc_tokens : List (List Char))
    (char_to_word_offset : List ℤ) (ans : QAAnswer) :
    Except Unit (Option (ℤ × ℤ)) :=
  match qa_answer_span char_to_word_offset ans with
  | Except.error e => Except.error e
  | Except.ok (start_position, end_position) =>
    let actual_text := joinTokens (pySlice doc_tokens start_position (end_position + 1))
    let cleaned_answer_text := joinTokens (whitespace_tokenize ans.text)
    if containsSubstr actual_text cleaned_answer_text then
      Except.ok (some (start_position, end_position))
    else Except.ok none

/-- The per-passage QA loop of lines 138-187 in training mode: emitted spans
in dataset order, a dropped pair contributing nothing and an `IndexError`
aborting the whole call. -/
def read_examples_aux (doc_tokens : List (List Char)) (char_to_word_offset : List ℤ) :
    List QAAnswer → Except Unit (List (ℤ × ℤ))
  | [] => Except.ok []
  | ans :: rest =>
    match process_training_answer doc_tokens char_to_word_offset ans with
    | Except.error e => Except.error e
    | Except.ok none => read_examples_aux doc_tokens char_to_word_offset rest
    | Except.ok (some span) =>
      match read_examples_aux doc_tokens char_to_word_offset rest with
      | Except.error e => Except.error e
      | Except.ok examples => Except.ok (span :: examples)

/-- `read_record_examples` (lines 111-189) for one passage in training mode
with non-impossible QA pairs. -/
def read_record_examples_train (paragraph_text : List Char)
    (answers : List QAAnswer) : Except Unit (List (ℤ × ℤ)) :=
  let dt := read_doc_tokens (normalize_passage paragraph_text)
  read_examples_aux dt.1 dt.2 answers

lemma read_examples_aux_length (doc_tokens : List (List Char))
    (char_to_word_offset : List ℤ) :
    ∀ (answers : List QAAnswer) (result : List (ℤ × ℤ)),
      read_examples_aux doc_tokens char_to_word_offset answers = Except.ok result →
      result.length ≤ answers.length := by
  intro answers
  induction answers with
  | nil =>
    intro result h
    simp only [read_examples_aux, Except.ok.injEq] at h
    rw [← h]
    simp
  | cons ans rest ih =>
    intro result h
    rw [read_examples_aux] at h
    cases hp : process_training_answer doc_tokens char_to_word_offset ans with
    | error e => rw [hp] at h; simp at h
    | ok o =>
      rw [hp] at h
      cases o with
      | none =>
        simp only [] at h
        have := ih result h
        simp only [List.length_cons]
        omega
      | some span =>
        simp only [] at h
        cases hr : read_examples_aux doc_tokens char_to_word_offset rest with
        | error e => rw [hr] at h; simp at h
        | ok examples =>
          rw [hr] at h
          simp only [Except.ok.injEq] at h
          have := ih examples hr
          rw [← h]
          simp only [List.length_cons]
          omega

/-- C8: in training mode each non-impossible QA pair has its character
offsets `start` and `start + len - 1` converted to a word span through the
char-to-word map, and produces an Example iff the space-joined document words
of that span — taken with Python slice semantics, so a span resolved to `-1`
reads the same (possibly empty) slice the source reads — contain the
whitespace-normalized answer text as a substring; a failing pair is dropped
with no exception (`Except.ok none`, distinct from the `IndexError` path), so
a successfully returned example list is never longer than the input QA list,
and the reader is exactly this per-pair filter applied in order. -/
theorem claim_C8 (paragraph_text : List Char) (answers : List QAAnswer) :
    (∀ result : List (ℤ × ℤ),
      read_record_examples_train paragraph_text answers = Except.ok result →
      result.length ≤ answers.length) ∧
    (∀ ans : QAAnswer, ∀ start_position end_position : ℤ,
      qa_answer_span (read_doc_tokens (normalize_passage paragraph_text)).2 ans =
          Except.ok (start_position, end_position) →
      ((process_training_answer (read_doc_tokens (normalize_passage paragraph_text)).1
          (read_doc_tokens (normalize_passage paragraph_text)).2 ans =
            Except.ok (some (start_position, end_position)) ↔
        containsSubstr
          (joinTokens (pySlice (read_doc_tokens (normalize_passage paragraph_text)).1
            start_position (end_position + 1)))
          (joinTokens (whitespace_tokenize ans.text)) = true) ∧
       (process_training_answer (read_doc_tokens (normalize_passage paragraph_text)).1
          (read_doc_tokens (normalize_passage paragraph_text)).2 ans =
            Except.ok none ↔
        containsSubstr
          (joinTokens (pySlice (read_doc_tokens (normalize_passage paragraph_text)).1
            start_position (end_position + 1)))
          (joinTokens (whitespace_tokenize ans.text)) = false))) ∧
    read_record_examples_train paragraph_text answers =
      read_examples_aux (read_doc_tokens (normalize_passage paragraph_text)).1
        (read_doc_tokens (normalize_passage paragraph_text)).2 answers := by
  refine ⟨?_, ?_, rfl⟩
  · intro result h
    exact read_examples_aux_length _ _ answers result h
  · intro ans start_position end_position hspan
    simp only [process_training_answer, hspan]
    by_cases hc : containsSubstr
        (joinTokens (pySlice (read_doc_tokens (normalize_passage paragraph_text)).1
          start_position (end_position + 1)))
        (joinTokens (whitespace_tokenize ans.text)) = true
    · constructor
      · simp [hc]
      · simp [hc]
    · rw [Bool.not_eq_true] at hc
      constructor
      · simp [hc]
      · simp [hc]

theorem claim_C8_witness :
    read_record_examples_train "the cat sat".toList
        [⟨"cat".toList, 4⟩, ⟨"dog".toList, 4⟩] = Except.ok [((1 : ℤ), (1 : ℤ))] ∧
    ([((1 : ℤ), (1 : ℤ))].length ≤ 2) ∧
    process_training_answer (read_doc_tokens (normalize_passage "the cat sat".toList)).1
        (read_doc_tokens (normalize_passage "the cat sat".toList)).2 ⟨"cat".toList, 4⟩ =
      Except.ok (some (1, 1)) ∧
    read_record_examples_train " a b c cat".toList [⟨"a".toList, 0⟩] = Except.ok [] :=
  ⟨by decide,
   (claim_C8 "the cat sat".toList [⟨"cat".toList, 4⟩, ⟨"dog".toList, 4⟩]).1
     [((1 : ℤ), (1 : ℤ))] (by decide),
   ((claim_C8 "the cat sat".toList [⟨"cat".toList, 4⟩, ⟨"dog".toList, 4⟩]).2.1
     ⟨"cat".toList, 4⟩ 1 1 (by decide)).1.mpr (by decide),
   by decide⟩

/-- `_strip_spaces` (lines 987-996): the non-space characters of `text`
together with the stripped-index to original-index map; stripped indices are
consecutive, so the Python `OrderedDict` is the positional list
`ns_to_s_map`. -/
def _strip_spaces (text : List Char) : List Char × List ℕ :=
  let st := text.foldl (fun (st : (List Char × List ℕ) × ℕ) c =>
      if c = ' ' then (st.1, st.2 + 1)
      else ((st.1.1 ++ [c], st.1.2 ++ [st.2]), st.2 + 1))
    (([], []), 0)
  st.1

/-- Python `tok_text.find(pred_text)` (line 1006): the first index at which
`pred_text` occurs, `none` standing for `-1`. -/
def findSubstrIdx (haystack needle : List Char) : Option ℕ :=
  (List.range (haystack.length + 1)).find? (fun i => needle.isPrefixOf (haystack.drop i))

/-- `get_final_text` (lines 959-1051), the external `BasicTokenizer` passed
as a function (`do_lower_case` is internal to it).  Every failed alignment
precondition returns `orig_text` unchanged: `tok_text.find(pred_text) == -1`
(line 1007), stripped-length mismatch (line 1016), or a missing entry in
`tok_s_to_ns_map` or `orig_ns_to_s_map` (lines 1028-1048); on success the
projected substring `orig_text[orig_start_position:(orig_end_position + 1)]`
is returned.  The inverted map lookup `tok_s_to_ns_map[pos]` is the
positional search `findIdx?`, since the values of `tok_ns_to_s_map` are
distinct; `end_position` is an integer because Python's
`start_position + len(pred_text) - 1` can be `-1`. -/
def get_final_text (tokenize : List Char → List (List Char))
    (pred_text orig_text : List Char) : List Char :=
  let tok_text := joinTokens (tokenize orig_text)
  match findSubstrIdx tok_text pred_text with
  | none => orig_text
  | some start_position =>
    let end_position : ℤ := (start_position : ℤ) + pred_text.length - 1
    let orig_stripped := _strip_spaces orig_text
    let tok_stripped := _strip_spaces tok_text
    if orig_stripped.1.length ≠ tok_stripped.1.length then orig_text
    else
      match tok_stripped.2.findIdx? (fun (v : ℕ) => (v : ℤ) == (start_position : ℤ)) with
      | none => orig_text
      | some ns_start =>
        match orig_stripped.2.get? ns_start with
        | none => orig_text
        | some orig_start_position =>
          match tok_stripped.2.findIdx? (fun (v : ℕ) => (v : ℤ) == end_position) with
          | none => orig_text
          | some ns_end =>
            match orig_stripped.2.get? ns_end with
            | none => orig_text
            | some orig_end_position =>
              (orig_text.drop orig_start_position).take
                (orig_end_position + 1 - orig_start_position)

/-- C9: `get_final_text` returns `orig_text` unchanged (it never raises)
whenever an alignment precondition fails — `pred_text` not a substring of the
space-joined re-tokenization, stripped lengths differing, or a start/end
position missing from the position maps (each of the four lookups of
lines 1028-1048 stated separately below) — and in every case returns either
`orig_text` itself or a substring of it; only when the whole precondition
chain succeeds does it return the projected substring of `orig_text`. -/
theorem claim_C9 (tokenize : List Char → List (List Char))
    (pred_text orig_text : List Char) :
    ((∀ i, pred_text.isPrefixOf ((joinTokens (tokenize orig_text)).drop i) = false) →
      get_final_text tokenize pred_text orig_text = orig_text) ∧
    ((_strip_spaces orig_text).1.length ≠
        (_strip_spaces (joinTokens (tokenize orig_text))).1.length →
      get_final_text tokenize pred_text orig_text = orig_text) ∧
    (get_final_text tokenize pred_text orig_text = orig_text ∨
      ∃ a n, get_final_text tokenize pred_text orig_text = (orig_text.drop a).take n) ∧
    (∀ sp ns_s os ns_e oe,
      findSubstrIdx (joinTokens (tokenize orig_text)) pred_text = some sp →
      (_strip_spaces orig_text).1.length =
        (_strip_spaces (joinTokens (tokenize orig_text))).1.length →
      (_strip_spaces (joinTokens (tokenize orig_text))).2.findIdx?
          (fun (v : ℕ) => (v : ℤ) == (sp : ℤ)) = some ns_s →
      (_strip_spaces orig_text).2.get? ns_s = some os →
      (_strip_spaces (joinTokens (tokenize orig_text))).2.findIdx?
          (fun (v : ℕ) => (v : ℤ) == ((sp : ℤ) + pred_text.length - 1)) = some ns_e →
      (_strip_spaces orig_text).2.get? ns_e = some oe →
      get_final_text tokenize pred_text orig_text = (orig_text.drop os).take (oe + 1 - os)) ∧
    (∀ sp,
      findSubstrIdx (joinTokens (tokenize orig_text)) pred_text = some sp →
      (_strip_spaces orig_text).1.length =
        (_strip_spaces (joinTokens (tokenize orig_text))).1.length →
      (_strip_spaces (joinTokens (tokenize orig_text))).2.findIdx?
          (fun (v : ℕ) => (v : ℤ) == (sp : ℤ)) = none →
      get_final_text tokenize pred_text orig_text = orig_text) ∧
    (∀ sp ns_s,
      findSubstrIdx (joinTokens (tokenize orig_text)) pred_text = some sp →
      (_strip_spaces orig_text).1.length =
        (_strip_spaces (joinTokens (tokenize orig_text))).1.length →
      (_strip_spaces (joinTokens (tokenize orig_text))).2.findIdx?
          (fun (v : ℕ) => (v : ℤ) == (sp : ℤ)) = some ns_s →
      (_strip_spaces orig_text).2.get? ns_s = none →
      get_final_text tokenize pred_text orig_text = orig_text) ∧
    (∀ sp ns_s os,
      findSubstrIdx (joinTokens (tokenize orig_text)) pred_text = some sp →
      (_strip_spaces orig_text).1.length =
        (_strip_spaces (joinTokens (tokenize orig_text))).1.length →
      (_strip_spaces (joinTokens (tokenize orig_text))).2.findIdx?
          (fun (v : ℕ) => (v : ℤ) == (sp : ℤ)) = some ns_s →
      (_strip_spaces orig_text).2.get? ns_s = some os →
      (_strip_spaces (joinTokens (tokenize orig_text))).2.findIdx?
          (fun (v : ℕ) => (v : ℤ) == ((sp : ℤ) + pred_text.length - 1)) = none →
      get_final_text tokenize pred_text orig_text = orig_text) ∧
    (∀ sp ns_s os ns_e,
      findSubstrIdx (joinTokens (tokenize orig_text)) pred_text = some sp →
      (_strip_spaces orig_text).1.length =
        (_strip_spaces (joinTokens (tokenize orig_text))).1.length →
      (_strip_spaces (joinTokens (tokenize orig_text))).2.findIdx?
          (fun (v : ℕ) => (v : ℤ) == (sp : ℤ)) = some ns_s →
      (_strip_spaces orig_text).2.get? ns_s = some os →
      (_strip_spaces (joinTokens (tokenize orig_text))).2.findIdx?
          (fun (v : ℕ) => (v : ℤ) == ((sp : ℤ) + pred_text.length - 1)) = some ns_e →
      (_strip_spaces orig_text).2.get? ns_e = none →
      get_final_text tokenize pred_text orig_text = orig_text) := by
  refine ⟨?_, ?_, ?_, ?_, ?_, ?_, ?_, ?_⟩
  · intro h
    have hnone : findSubstrIdx (joinTokens (tokenize orig_text)) pred_text = none := by
      unfold findSubstrIdx
      rw [List.find?_eq_none]
      intro i _
      simp [h i]
    simp [get_final_text, hnone]
  · intro hlen
    simp only [get_final_text]
    cases hf : findSubstrIdx (joinTokens (tokenize orig_text)) pred_text with
    | none => rfl
    | some sp =>
      simp only [if_pos hlen]
  · simp only [get_final_text]
    split
    · exact Or.inl rfl
    · split
      · exact Or.inl rfl
      · split
        · exact Or.inl rfl
        · split
          · exact Or.inl rfl
          · split
            · exact Or.inl rfl
            · split
              · exact Or.inl rfl
              · exact Or.inr ⟨_, _, rfl⟩
  · intro sp ns_s os ns_e oe h1 h2 h3 h4 h5 h6
    simp only [get_final_text, h1, h3, h4, h5, h6, if_neg (not_ne_iff.mpr h2)]
  · intro sp h1 h2 h3
    simp only [get_final_text, h1, h3, if_neg (not_ne_iff.mpr h2)]
  · intro sp ns_s h1 h2 h3 h4
    simp only [get_final_text, h1, h3, h4, if_neg (not_ne_iff.mpr h2)]
  · intro sp ns_s os h1 h2 h3 h4 h5
    simp only [get_final_text, h1, h3, h4, h5, if_neg (not_ne_iff.mpr h2)]
  · intro sp ns_s os ns_e h1 h2 h3 h4 h5 h6
    simp only [get_final_text, h1, h3, h4, h5, h6, if_neg (not_ne_iff.mpr h2)]

/-- A concrete basic tokenizer for the specification's example: lower-cases
"Steve Smith's" and splits off the possessive punctuation. -/
def demo_basic_tokenize : List Char → List (List Char) := fun t =>
  if t = ("Steve Smith's").toList then
    ["steve".toList, "smith".toList, "'".toList, "s".toList]
  else [t]

theorem claim_C9_witness :
    get_final_text demo_basic_tokenize "steve smith".toList "Steve Smith's".toList =
      "Steve Smith".toList ∧
    get_final_text demo_basic_tokenize "steve ".toList "Steve Smith's".toList =
      "Steve Smith's".toList := by
  constructor
  · have h := (claim_C9 demo_basic_tokenize "steve smith".toList
        "Steve Smith's".toList).2.2.2.1
      0 0 0 9 10 (by decide) (by decide) (by decide) (by decide) (by decide) (by decide)
    exact h.trans (by decide)
  · exact (claim_C9 demo_basic_tokenize "steve ".toList
        "Steve Smith's".toList).2.2.2.2.2.2.1
      0 0 0 (by decide) (by decide) (by decide) (by decide) (by decide)

/-- The dev-count release loop of `data_generator`'s `wrapper`
(lines 707-726) over the prepared batches of one epoch, abstracted over the
batch payload: a batch is appended to `all_dev_batches` while that buffer
holds fewer than `dev_count` entries, the whole group is yielded once it
reaches exactly `dev_count` and the buffer resets; whatever remains buffered
when the epoch's batches run out is dropped. -/
def dev_buffer_aux {α : Type} (dev_count : ℕ) : List α → List α → List α
  | _, [] => []
  | all_dev_batches, b :: rest =>
    let all' := if all_dev_batches.length < dev_count then all_dev_batches ++ [b]
                else all_dev_batches
    if all'.length = dev_count then all' ++ dev_buffer_aux dev_count [] rest
    else dev_buffer_aux dev_count all' rest

/-- One epoch's released batches: the loop starts each epoch with
`all_dev_batches = []` (line 707). -/
def dev_buffer {α : Type} (dev_count : ℕ) (batches : List α) : List α :=
  dev_buffer_aux dev_count [] batches

/-- The batches released by `wrapper` over `epoch` epochs with the same
prepared batch list each epoch. -/
def wrapper_batches {α : Type} (epoch dev_count : ℕ) (batches : List α) : List α :=
  (List.range epoch).flatMap (fun _ => dev_buffer dev_count batches)

lemma dev_buffer_aux_take {α : Type} (dc : ℕ) (hdc : 1 ≤ dc) :
    ∀ (l buf : List α), buf.length < dc →
      dev_buffer_aux dc buf l =
        (buf ++ l).take (dc * ((buf.length + l.length) / dc)) := by
  intro l
  induction l with
  | nil =>
    intro buf hbuf
    have h0 : (buf.length + 0) / dc = 0 := Nat.div_eq_of_lt (by omega)
    simp only [dev_buffer_aux, List.length_nil, h0, Nat.mul_zero, List.take_zero]
  | cons b rest ih =>
    intro buf hbuf
    rw [dev_buffer_aux]
    simp only [if_pos hbuf]
    by_cases hfull : (buf ++ [b]).length = dc
    · rw [if_pos hfull]
      rw [ih [] (by simp only [List.length_nil]; omega)]
      simp only [List.length_nil, List.nil_append, Nat.zero_add]
      have harith : dc * ((buf.length + (b :: rest).length) / dc) =
          (buf ++ [b]).length + dc * (rest.length / dc) := by
        rw [List.length_append, List.length_singleton] at hfull
        rw [List.length_cons]
        have h2 : buf.length + (rest.length + 1) = rest.length + dc := by omega
        rw [h2, Nat.add_div_right _ (by omega), Nat.mul_add, Nat.mul_one]
        rw [List.length_append, List.length_singleton]
        omega
      rw [harith, ← List.take_append, ← List.append_cons]
    · rw [if_neg hfull]
      have hlt : (buf ++ [b]).length < dc := by
        rw [List.length_append, List.length_singleton] at hfull ⊢
        omega
      rw [ih (buf ++ [b]) hlt]
      have harith : (buf ++ [b]).length + rest.length = buf.length + (b :: rest).length := by
        rw [List.length_append, List.length_singleton, List.length_cons]
        omega
      rw [harith, ← List.append_cons]

/-- C10: with at least one consumer slot, the epoch-wrapping generator
releases prepared batches only in complete groups of `dev_count`: per epoch
exactly the first `dev_count * (n / dev_count)` batches are yielded, in
order, and the trailing incomplete group (`n mod dev_count` batches) is
discarded and never yielded; over several epochs this repeats identically
per epoch. -/
theorem claim_C10 {α : Type} (dev_count : ℕ) (hdc : 1 ≤ dev_count)
    (batches : List α) (epoch : ℕ) :
    dev_buffer dev_count batches =
      batches.take (dev_count * (batches.length / dev_count)) ∧
    (dev_buffer dev_count batches).length =
      dev_count * (batches.length / dev_count) ∧
    wrapper_batches epoch dev_count batches =
      (List.range epoch).flatMap
        (fun _ => batches.take (dev_count * (batches.length / dev_count))) := by
  have h1 : dev_buffer dev_count batches =
      batches.take (dev_count * (batches.length / dev_count)) := by
    have h := dev_buffer_aux_take dev_count hdc batches []
      (by simp only [List.length_nil]; omega)
    simpa [dev_buffer] using h
  have hle : dev_count * (batches.length / dev_count) ≤ batches.length := by
    rw [Nat.mul_comm]
    exact Nat.div_mul_le_self _ _
  refine ⟨h1, ?_, ?_⟩
  · rw [h1, List.length_take]
    omega
  · unfold wrapper_batches
    rw [h1]

theorem claim_C10_witness :
    dev_buffer 2 [10, 20, 30] = [10, 20] ∧
    (dev_buffer 2 [10, 20, 30]).length = 2 :=
  ⟨((claim_C10 2 (by decide) [10, 20, 30] 1).1).trans (by decide),
   ((claim_C10 2 (by decide) [10, 20, 30] 1).2.1).trans (by decide)⟩
